import Mathlib

/-!
Verification of the AI-assisted text editor core against its specification.

Part 1 embeds the server-side deduplication pipeline from server.js
(the body of the continue-writing endpoint, strategies 1 to 4 plus
cleanup and re-spacing).  Strings are modelled as lists of characters;
JavaScript trim, toLowerCase, split and slice are modelled on the ASCII
fragment the repository exercises.

Part 2 embeds the XState editor machine from editorMachine.ts as an
explicit transition function over a state tag and a context record.
-/

/-- JavaScript whitespace, restricted to the ASCII characters that occur
in this repository's texts. -/
def isWs (c : Char) : Bool :=
  c == ' ' || c == '\t' || c == '\n' || c == '\r'

/-- Character lowercasing as JavaScript toLowerCase acts on ASCII. -/
def lowerL (l : List Char) : List Char := l.map Char.toLower

/-- JavaScript String.prototype.trim on a character list. -/
def jsTrim (l : List Char) : List Char :=
  ((l.dropWhile isWs).reverse.dropWhile isWs).reverse

/-- JavaScript String.prototype.startsWith: does the first list start
with the second? -/
def startsWithL : List Char → List Char → Bool
  | _, [] => true
  | [], _ :: _ => false
  | c :: cs, p :: ps => c == p && startsWithL cs ps

/-- JavaScript String.prototype.split on a regex matching runs of
characters satisfying p: fragments between maximal runs, with an empty
fragment when the string starts or ends with a run (or is empty).  The
flag records whether the previous character belonged to a separator run
whose fragment has already been emitted. -/
def splitRunsGo (p : Char → Bool) : List Char → List Char → Bool → List (List Char)
  | [], acc, _ => [acc.reverse]
  | c :: rest, acc, inRun =>
    if p c then
      if inRun then splitRunsGo p rest acc true
      else acc.reverse :: splitRunsGo p rest [] true
    else splitRunsGo p rest (c :: acc) false

def splitRuns (p : Char → Bool) (l : List Char) : List (List Char) :=
  splitRunsGo p l [] false

/-- Sentence terminators used by strategy 4 of the server. -/
def isTermC (c : Char) : Bool := c == '.' || c == '!' || c == '?'

/-- The character class stripped by the final cleanup replace. -/
def isCleanupC (c : Char) : Bool :=
  c == '.' || c == ',' || c == ';' || c == ':' || isWs c

/-- The punctuation class tested by the re-spacing step. -/
def isPunctStart (c : Char) : Bool :=
  c == '.' || c == ',' || c == '!' || c == '?' || c == ';' || c == ':'

/-- Strategy 2 descending loop of server.js: for word count w from
min(words, 20) down to 3, return the joined last w words of the original
if the (stale) lower-cased continuation starts with them. -/
def strat2Find (contLower : List Char) (words : List (List Char)) : Nat → Option (List Char)
  | 0 => none
  | w + 1 =>
    if w + 1 < 3 then none
    else
      let lastN := List.intercalate [' '] (words.drop (words.length - (w + 1)))
      if startsWithL contLower (lowerL lastN) then some lastN
      else strat2Find contLower words w

/-- Strategy 3 ascending loop of server.js: the largest overlap length i
between 10 and min of the lengths where the last i characters of the
original case-insensitively equal the first i of the continuation,
0 when none exists. -/
def strat3Max (text cont : List Char) : Nat :=
  (List.range' 10 (min text.length cont.length + 1 - 10)).foldl
    (fun acc i =>
      if lowerL (text.drop (text.length - i)) = lowerL (cont.take i) then i else acc)
    0

/-- The sentence fragments of the original text: split on runs of
terminators, discarding fragments that are blank after trimming. -/
def sentencesOf (text : List Char) : List (List Char) :=
  (splitRuns isTermC text).filter (fun s => !(jsTrim s).isEmpty)

/-- Strategy 4 descending loop of server.js: for sentence count k from
all sentences down to 1, return the trimmed dot-joined last k fragments
if nonempty and the (stale) lower-cased continuation starts with them. -/
def strat4Find (contLower : List Char) (sents : List (List Char)) : Nat → Option (List Char)
  | 0 => none
  | i + 1 =>
    let lastS := jsTrim (List.intercalate ['.'] (sents.drop (sents.length - (i + 1))))
    if !lastS.isEmpty && startsWithL contLower (lowerL lastS) then some lastS
    else strat4Find contLower sents i

/-- The deduplication pipeline of server.js, lines 118 to 179: trim the
raw response, then strategies 1 to 4, cleanup, and re-spacing.  The
variable contLower is computed once from the trimmed raw continuation
and never refreshed, exactly as in the source. -/
def cleanServer (text raw : List Char) : List Char :=
  let cont0 := jsTrim raw
  let textLower := lowerL (jsTrim text)
  let contLower := lowerL cont0
  let c1 := if startsWithL contLower textLower then jsTrim (cont0.drop text.length) else cont0
  let words := splitRuns isWs (jsTrim text)
  let c2 :=
    match strat2Find contLower words (min words.length 20) with
    | none => c1
    | some lastN => jsTrim (c1.drop lastN.length)
  let c3 := if 0 < strat3Max text c2 then jsTrim (c2.drop (strat3Max text c2)) else c2
  let sents := sentencesOf text
  let c4 :=
    match strat4Find contLower sents sents.length with
    | none => c3
    | some lastS => jsTrim (c3.drop lastS.length)
  let c5 := jsTrim (c4.dropWhile isCleanupC)
  if !c5.isEmpty && !(text.getLast? == some ' ')
      && !(match c5.head? with | some c => isPunctStart c | none => false) then
    ' ' :: c5
  else c5

/-- Stage 1 of the pipeline in isolation: full-text echo removal.  The
parameter contLower is the lower-cased trimmed raw continuation captured
before any stage ran. -/
def stageFullEcho (text contLower cont : List Char) : List Char :=
  if startsWithL contLower (lowerL (jsTrim text)) then jsTrim (cont.drop text.length) else cont

/-- Stage 2 in isolation: trailing-word-run echo removal, testing against
the stale contLower. -/
def stageWordRun (text contLower cont : List Char) : List Char :=
  let words := splitRuns isWs (jsTrim text)
  match strat2Find contLower words (min words.length 20) with
  | none => cont
  | some lastN => jsTrim (cont.drop lastN.length)

/-- Stage 3 in isolation: longest common literal overlap removal, testing
the current string. -/
def stageOverlap (text cont : List Char) : List Char :=
  if 0 < strat3Max text cont then jsTrim (cont.drop (strat3Max text cont)) else cont

/-- Stage 4 in isolation: trailing-sentence echo removal, testing against
the stale contLower. -/
def stageSentence (text contLower cont : List Char) : List Char :=
  let sents := sentencesOf text
  match strat4Find contLower sents sents.length with
  | none => cont
  | some lastS => jsTrim (cont.drop lastS.length)

/-- Stage 5 in isolation: strip the leading punctuation and whitespace
run, then trim. -/
def stageCleanup (cont : List Char) : List Char := jsTrim (cont.dropWhile isCleanupC)

/-- Stage 6 in isolation: prepend a single space when the result is
nonempty, the original does not end in a space, and the result does not
begin with sentence punctuation. -/
def stageRespace (text cont : List Char) : List Char :=
  if !cont.isEmpty && !(text.getLast? == some ' ')
      && !(match cont.head? with | some c => isPunctStart c | none => false) then
    ' ' :: cont
  else cont

/-- The cleanup class as worded by the spec: dot, comma, semicolon,
colon, plain space. -/
def isCleanupSpecC (c : Char) : Bool :=
  c == '.' || c == ',' || c == ';' || c == ':' || c == ' '

/-- Modelled from the spec: the section 4.1 algorithm as the spec words
it, each stage testing the current state of the partially cleaned string
with a fresh case fold and no inter-stage trimming.  This definition
exists only to compare the spec's wording against the source pipeline. -/
def cleanSpecModel (text raw : List Char) : List Char :=
  let c1 := if startsWithL (lowerL raw) (lowerL (jsTrim text)) then raw.drop text.length else raw
  let words := splitRuns isWs (jsTrim text)
  let c2 :=
    match strat2Find (lowerL c1) words (min words.length 20) with
    | none => c1
    | some lastN => c1.drop lastN.length
  let c3 := if 0 < strat3Max text c2 then c2.drop (strat3Max text c2) else c2
  let sents := sentencesOf text
  let c4 :=
    match strat4Find (lowerL c3) sents sents.length with
    | none => c3
    | some lastS => c3.drop lastS.length
  let c5 := jsTrim (c4.dropWhile isCleanupSpecC)
  stageRespace text c5

/-- The word-count formula used throughout editorMachine.ts: zero for
blank text, otherwise the number of fragments of the trimmed text split
on whitespace runs. -/
def wordCountJs (t : List Char) : Nat :=
  if (jsTrim t).isEmpty then 0 else (splitRuns isWs (jsTrim t)).length

/-- The context record of the editor machine. -/
structure EditorContext where
  text : List Char
  wordCount : Nat
  charCount : Nat
  history : List (List Char)
  error : Option (List Char)
  generatedText : Option (List Char)
  typingIndex : Nat
  isTyping : Bool
deriving DecidableEq, Repr

/-- The initial context of editorMachine.ts. -/
def initCtx : EditorContext :=
  { text := [], wordCount := 0, charCount := 0, history := [], error := none,
    generatedText := none, typingIndex := 0, isTyping := false }

/-- The four states of the machine. -/
inductive MState where
  | idle | loading | typing | error
deriving DecidableEq, Repr

/-- Events the machine receives.  The done and fail events stand for the
resolution of the invoked continuation service. -/
inductive Event where
  | update (t : List Char)
  | updateStats (w c : Nat)
  | continueWriting
  | undo
  | clear
  | retry
  | saveHistory
  | typeNext
  | typingDone
  | stopTypingEv
  | done (g : List Char)
  | fail (m : List Char)
deriving DecidableEq, Repr

/-- JavaScript truthiness of the generatedText field: null and the empty
string are both falsy. -/
def genFalsy : Option (List Char) → Bool
  | none => true
  | some g => g.isEmpty

/-- Action updateText: replace text and clear the error.  Counts are not
recomputed here. -/
def updateText (t : List Char) (ctx : EditorContext) : EditorContext :=
  { ctx with text := t, error := none }

/-- Action updateStats: overwrite both counts with the event's values. -/
def updateStatsAct (w c : Nat) (ctx : EditorContext) : EditorContext :=
  { ctx with wordCount := w, charCount := c }

/-- The history push of saveToHistory: keep the last nine entries (the
slice from minus nine) and append the text. -/
def pushHist (h : List (List Char)) (t : List Char) : List (List Char) :=
  h.drop (h.length - 9) ++ [t]

/-- Action saveToHistory: keep the last nine entries and append the
current text. -/
def saveToHistory (ctx : EditorContext) : EditorContext :=
  { ctx with history := pushHist ctx.history ctx.text }

/-- Action prepareTyping: store the service result, reset the index,
clear the error. -/
def prepareTyping (g : List Char) (ctx : EditorContext) : EditorContext :=
  { ctx with generatedText := some g, typingIndex := 0, error := none }

/-- Entry action of typing. -/
def startTyping (ctx : EditorContext) : EditorContext := { ctx with isTyping := true }

/-- Exit action of typing. -/
def stopTyping (ctx : EditorContext) : EditorContext := { ctx with isTyping := false }

/-- Action typeNextChar: append the character at typingIndex and
recompute both counts; a falsy generatedText leaves everything
unchanged. -/
def typeNextChar (ctx : EditorContext) : EditorContext :=
  match ctx.generatedText with
  | none => ctx
  | some g =>
    if g.isEmpty then ctx
    else
      let newText := ctx.text ++ (g.drop ctx.typingIndex).take 1
      { ctx with
          text := newText
          typingIndex := ctx.typingIndex + 1
          wordCount := wordCountJs newText
          charCount := newText.length }

/-- Action completeTyping: clear the reveal fields, leaving text as it
stands. -/
def completeTyping (ctx : EditorContext) : EditorContext :=
  { ctx with generatedText := none, typingIndex := 0, isTyping := false }

/-- Action completeTypingImmediately: append the entire unrevealed
suffix and recompute counts; a falsy generatedText only clears the
isTyping flag. -/
def completeTypingImmediately (ctx : EditorContext) : EditorContext :=
  match ctx.generatedText with
  | none => { ctx with isTyping := false }
  | some g =>
    if g.isEmpty then { ctx with isTyping := false }
    else
      let finalText := ctx.text ++ g.drop ctx.typingIndex
      { ctx with
          text := finalText
          wordCount := wordCountJs finalText
          charCount := finalText.length
          generatedText := none
          typingIndex := 0
          isTyping := false }

/-- Action undoText: pop the last history entry into text (empty text
when history is empty) and recompute counts. -/
def undoText (ctx : EditorContext) : EditorContext :=
  let previousText := (ctx.history.getLast?).getD []
  { ctx with
      text := previousText
      wordCount := wordCountJs previousText
      charCount := previousText.length
      history := ctx.history.dropLast }

/-- Action clearText: reset everything except history. -/
def clearText (ctx : EditorContext) : EditorContext :=
  { ctx with
      text := []
      wordCount := 0
      charCount := 0
      error := none
      generatedText := none
      typingIndex := 0
      isTyping := false }

/-- Action setError: store the failure message, with the default text for
an absent or empty one. -/
def setError (m : List Char) (ctx : EditorContext) : EditorContext :=
  { ctx with error := some (if m.isEmpty then "An error occurred. Please try again.".toList else m) }

/-- Guard hasText. -/
def hasText (ctx : EditorContext) : Bool := !(jsTrim ctx.text).isEmpty

/-- Guard hasHistory. -/
def hasHistory (ctx : EditorContext) : Bool := !ctx.history.isEmpty

/-- Guard isTypingComplete, with JavaScript truthiness on
generatedText. -/
def isTypingComplete (ctx : EditorContext) : Bool :=
  match ctx.generatedText with
  | none => true
  | some g => if g.isEmpty then true else decide ((ctx.generatedText.getD []).length ≤ ctx.typingIndex)

/-- The transition function of editorMachine.ts.  Entry and exit actions
are inlined at each transition in XState order: exit actions of the
source state, then transition actions, then entry actions of the target.
Unhandled events leave state and context untouched. -/
def step (s : MState) (ctx : EditorContext) (e : Event) : MState × EditorContext :=
  match s, e with
  | MState.idle, Event.update t => (MState.idle, updateText t ctx)
  | MState.idle, Event.updateStats w c => (MState.idle, updateStatsAct w c ctx)
  | MState.idle, Event.continueWriting =>
    if hasText ctx then (MState.loading, saveToHistory ctx) else (MState.idle, ctx)
  | MState.idle, Event.undo =>
    if hasHistory ctx then (MState.idle, undoText ctx) else (MState.idle, ctx)
  | MState.idle, Event.clear => (MState.idle, clearText ctx)
  | MState.idle, Event.saveHistory => (MState.idle, saveToHistory ctx)
  | MState.loading, Event.done g => (MState.typing, startTyping (prepareTyping g ctx))
  | MState.loading, Event.fail m => (MState.error, setError m ctx)
  | MState.typing, Event.typeNext =>
    if isTypingComplete ctx then (MState.idle, completeTyping (stopTyping ctx))
    else (MState.typing, typeNextChar ctx)
  | MState.typing, Event.stopTypingEv =>
    (MState.idle, completeTypingImmediately (stopTyping ctx))
  | MState.typing, Event.clear => (MState.idle, clearText (stopTyping ctx))
  | MState.error, Event.retry => (MState.loading, saveToHistory ctx)
  | MState.error, Event.update t => (MState.idle, updateText t ctx)
  | MState.error, Event.updateStats w c => (MState.error, updateStatsAct w c ctx)
  | MState.error, Event.clear => (MState.idle, clearText ctx)
  | _, _ => (s, ctx)

/-- Run a list of events from a configuration. -/
def runEvents (p : MState × EditorContext) (es : List Event) : MState × EditorContext :=
  es.foldl (fun q e => step q.1 q.2 e) p

/-- Dispatch the same event n times. -/
def stepsIter (e : Event) : Nat → MState × EditorContext → MState × EditorContext
  | 0, p => p
  | n + 1, p => stepsIter e n (step p.1 p.2 e)

/-- Reachable configurations of the machine from its initial one. -/
inductive Reach : MState × EditorContext → Prop where
  | init : Reach (MState.idle, initCtx)
  | next {p : MState × EditorContext} (h : Reach p) (e : Event) : Reach (step p.1 p.2 e)

/-- The pre-continuation snapshots of a run of successive continuations:
the document text just before each request. -/
def preTexts (t : List Char) : List (List Char) → List (List Char)
  | [] => []
  | g :: gs => t :: preTexts (t ++ g) gs

/-- The event trace of a run of successful continuations, each revealed
by an immediate skip to the end. -/
def cyclesEvents (gs : List (List Char)) : List Event :=
  (gs.map (fun g => [Event.continueWriting, Event.done g, Event.stopTypingEv])).flatten

/-- All four echo tests of the pipeline fail on the continuation c (with
its own fresh case fold): c holds no repeated tail of the original. -/
def noEchoTests (text c : List Char) : Bool :=
  let cl := lowerL c
  let words := splitRuns isWs (jsTrim text)
  let sents := sentencesOf text
  !(startsWithL cl (lowerL (jsTrim text))) &&
  (strat2Find cl words (min words.length 20)).isNone &&
  (strat3Max text c == 0) &&
  (strat4Find cl sents sents.length).isNone

/-! ## Helper lemmas -/

/-- The pipeline of server.js factors into the six stages applied in
order, where the stale lower-cased continuation captured before stage 1
is fed to the tests of stages 2 and 4. -/
theorem cleanServer_factored (text raw : List Char) :
    cleanServer text raw =
      stageRespace text (stageCleanup (stageSentence text (lowerL (jsTrim raw))
        (stageOverlap text (stageWordRun text (lowerL (jsTrim raw))
          (stageFullEcho text (lowerL (jsTrim raw)) (jsTrim raw)))))) := rfl

/-! ## Claim C1 -/

/-- Claim C1 (code behaviour at the spec's example): on the inputs
original "The cat sat." and raw "The cat sat. Then it slept.", the
deduplication pipeline of server.js returns the empty string, because
strategies 2 and 4 test the stale lower-cased raw continuation after
strategy 1 already removed the echo and so strip the genuine
continuation; the spec-worded algorithm returns " Then it slept.". -/
theorem c1_full_echo_code :
    cleanServer ("The cat sat.").toList ("The cat sat. Then it slept.").toList = [] ∧
    cleanSpecModel ("The cat sat.").toList ("The cat sat. Then it slept.").toList =
      (" Then it slept.").toList := by
  constructor <;> decide

/-! ## Claim C2 -/

/-- Claim C2 counterexample: the stages do not all operate on the
current state of the partially cleaned string; at the full-echo example
the source pipeline and the current-state pipeline of the spec's wording
disagree. -/
theorem c2_counterexample :
    cleanServer ("The cat sat.").toList ("The cat sat. Then it slept.").toList ≠
      cleanSpecModel ("The cat sat.").toList ("The cat sat. Then it slept.").toList := by
  decide

/-- Claim C2 as amended: the four stages run in the fixed order
full-text echo, trailing-word-run echo, longest common literal overlap,
trailing-sentence echo, and every stage's removal acts on the current
string, but the prefix tests of stages 2 and 4 compare against the
lower-casing of the trimmed raw input captured before stage 1, not the
current string; stages 1 and 3 test the current string. -/
theorem c2_stage_order (text raw : List Char) :
    cleanServer text raw =
      stageRespace text (stageCleanup (stageSentence text (lowerL (jsTrim raw))
        (stageOverlap text (stageWordRun text (lowerL (jsTrim raw))
          (stageFullEcho text (lowerL (jsTrim raw)) (jsTrim raw)))))) :=
  cleanServer_factored text raw

/-! ## Claim C4 -/

/-- Claim C4: dispatching CONTINUE while the machine is loading or
typing leaves the state and the whole context unchanged; the loading
and typing states have no CONTINUE handler. -/
theorem c4_single_flight (ctx : EditorContext) :
    step MState.loading ctx Event.continueWriting = (MState.loading, ctx) ∧
    step MState.typing ctx Event.continueWriting = (MState.typing, ctx) :=
  ⟨rfl, rfl⟩

/-! ## Claim C10 -/

/-- Claim C10: in the typing state with an absent or empty generated
continuation, the first TYPE_NEXT_CHAR moves to idle clearing the reveal
fields with the text untouched, and STOP_TYPING moves to idle changing
nothing but the isTyping flag. -/
theorem c10_empty_generated (ctx : EditorContext)
    (h : genFalsy ctx.generatedText = true) :
    step MState.typing ctx Event.typeNext =
      (MState.idle, { ctx with generatedText := none, typingIndex := 0, isTyping := false }) ∧
    step MState.typing ctx Event.stopTypingEv =
      (MState.idle, { ctx with isTyping := false }) := by
  cases hg : ctx.generatedText with
  | none =>
    refine ⟨?_, ?_⟩ <;>
      simp [step, isTypingComplete, hg, completeTyping, stopTyping,
        completeTypingImmediately]
  | some g =>
    have hge : g.isEmpty = true := by
      rw [hg] at h
      simpa [genFalsy] using h
    refine ⟨?_, ?_⟩ <;>
      simp [step, isTypingComplete, hg, hge, completeTyping, stopTyping,
        completeTypingImmediately]

/-- Witness for claim C10 at a concrete typing configuration with an
empty generated continuation. -/
theorem c10_empty_generated_witness :
    step MState.typing { initCtx with generatedText := some [], isTyping := true }
        Event.typeNext =
      (MState.idle, { initCtx with generatedText := none, typingIndex := 0, isTyping := false }) :=
  (c10_empty_generated { initCtx with generatedText := some [], isTyping := true } rfl).1

/-! ## Claim C6 -/

/-- Claim C6 counterexample: the UPDATE transition in idle replaces the
text without recomputing the counts, so charCount (still zero) diverges
from the length of the new text. -/
theorem c6_counterexample :
    (step MState.idle initCtx (Event.update ("hi").toList)).2.charCount ≠
      ((step MState.idle initCtx (Event.update ("hi").toList)).2.text).length := by
  decide

/-- Claim C6 as amended: every transition other than UPDATE and
UPDATE_STATS either leaves the text unchanged or recomputes both counts
from the new text (charCount as its length, wordCount as the number of
whitespace-delimited words of the trimmed text, zero for blank text);
UPDATE replaces the text without recomputing the counts, which arrive
separately through UPDATE_STATS. -/
theorem c6_amended (s : MState) (ctx : EditorContext) (e : Event)
    (hu : ∀ t, e ≠ Event.update t) (hs : ∀ w c, e ≠ Event.updateStats w c) :
    (step s ctx e).2.text = ctx.text ∨
    ((step s ctx e).2.wordCount = wordCountJs (step s ctx e).2.text ∧
     (step s ctx e).2.charCount = (step s ctx e).2.text.length) := by
  cases s <;> cases e <;>
    first
    | exact absurd rfl (hu _)
    | exact absurd rfl (hs _ _)
    | exact Or.inl rfl
    | exact Or.inr ⟨rfl, rfl⟩
    | skip
  case idle.continueWriting =>
    by_cases h : hasText ctx <;> simp [step, h, saveToHistory] <;>
      try first | exact Or.inr ⟨rfl, rfl⟩ | exact Or.inl rfl
  case idle.undo =>
    by_cases h : hasHistory ctx <;> simp [step, h] <;>
      try first | exact Or.inr ⟨rfl, rfl⟩ | exact Or.inl rfl
  case typing.typeNext =>
    by_cases h : isTypingComplete ctx <;> simp [step, h] <;>
      try first | exact Or.inr ⟨rfl, rfl⟩ | exact Or.inl rfl
    cases hg : ctx.generatedText with
    | none => simp [typeNextChar, hg]
    | some g =>
      by_cases hge : g.isEmpty <;> simp [typeNextChar, hg, hge] <;>
        try first | exact Or.inr ⟨rfl, rfl⟩ | exact Or.inl rfl
  case typing.stopTypingEv =>
    cases hg : ctx.generatedText with
    | none => simp [step, completeTypingImmediately, stopTyping, hg]
    | some g =>
      by_cases hge : g.isEmpty <;>
        simp [step, completeTypingImmediately, stopTyping, hg, hge] <;>
        try first | exact Or.inr ⟨rfl, rfl⟩ | exact Or.inl rfl

/-- Witness for the amended claim C6: the UNDO transition in idle at the
initial context. -/
theorem c6_amended_witness :
    (step MState.idle initCtx Event.undo).2.text = initCtx.text ∨
    ((step MState.idle initCtx Event.undo).2.wordCount =
        wordCountJs (step MState.idle initCtx Event.undo).2.text ∧
     (step MState.idle initCtx Event.undo).2.charCount =
        (step MState.idle initCtx Event.undo).2.text.length) :=
  c6_amended MState.idle initCtx Event.undo
    (fun _ h => Event.noConfusion h) (fun _ _ h => Event.noConfusion h)

/-! ## Claim C8 -/

/-- Claim C8: starting from the initial context, UPDATE with "A", a
successful CONTINUE whose generator returns "B", and a completed reveal
leave text "AB" with the snapshot "A" in history; UNDO then restores
text "A" and removes that snapshot, and UNDO with empty history is a
no-op (the hasHistory guard). -/
theorem c8_undo_correctness :
    (runEvents (MState.idle, initCtx)
        [Event.update ("A").toList, Event.continueWriting, Event.done ("B").toList,
         Event.typeNext, Event.typeNext, Event.undo]).1 = MState.idle ∧
    (runEvents (MState.idle, initCtx)
        [Event.update ("A").toList, Event.continueWriting, Event.done ("B").toList,
         Event.typeNext, Event.typeNext, Event.undo]).2.text = ("A").toList ∧
    (runEvents (MState.idle, initCtx)
        [Event.update ("A").toList, Event.continueWriting, Event.done ("B").toList,
         Event.typeNext, Event.typeNext, Event.undo]).2.history = [] ∧
    (∀ ctx : EditorContext, ctx.history = [] →
      step MState.idle ctx Event.undo = (MState.idle, ctx)) := by
  refine ⟨by decide, by decide, by decide, ?_⟩
  intro ctx h
  simp [step, hasHistory, h]

/-- Witness for claim C8's guard clause at the initial context. -/
theorem c8_undo_correctness_witness :
    step MState.idle initCtx Event.undo = (MState.idle, initCtx) :=
  c8_undo_correctness.2.2.2 initCtx rfl

/-! ## Typing reveal lemmas for claims C3 and C7 -/

/-- Unfolding an iterated dispatch from the far end. -/
theorem stepsIter_add_one (e : Event) (n : Nat) (p : MState × EditorContext) :
    stepsIter e (n + 1) p =
      step (stepsIter e n p).1 (stepsIter e n p).2 e := by
  induction n generalizing p with
  | zero => rfl
  | succ n ih =>
    rw [show stepsIter e (n + 1 + 1) p = stepsIter e (n + 1) (step p.1 p.2 e) from rfl, ih]
    rfl

/-- Splitting one character off a take of the suffix at index i. -/
theorem take_one_cons (g : List Char) (i k : Nat) (h : i < g.length) :
    (g.drop i).take 1 ++ (g.drop (i + 1)).take k = (g.drop i).take (k + 1) := by
  cases hd : g.drop i with
  | nil =>
    rw [List.drop_eq_nil_iff] at hd
    omega
  | cons c rest =>
    have hr : g.drop (i + 1) = rest := by
      have hdd : (g.drop i).drop 1 = g.drop (i + 1) := by
        rw [List.drop_drop]
      rw [hd] at hdd
      simpa using hdd.symm
    simp [hd, hr]

/-- Running k reveal ticks from a typing configuration with at least k
unrevealed characters: the machine stays typing, appends exactly the
next k characters, and advances the index by k. -/
theorem ticks_run (k : Nat) : ∀ (ctx : EditorContext) (g : List Char),
    ctx.generatedText = some g → g ≠ [] → ctx.typingIndex + k ≤ g.length →
    (stepsIter Event.typeNext k (MState.typing, ctx)).1 = MState.typing ∧
    (stepsIter Event.typeNext k (MState.typing, ctx)).2.text
      = ctx.text ++ (g.drop ctx.typingIndex).take k ∧
    (stepsIter Event.typeNext k (MState.typing, ctx)).2.typingIndex
      = ctx.typingIndex + k ∧
    (stepsIter Event.typeNext k (MState.typing, ctx)).2.generatedText = some g := by
  induction k with
  | zero =>
    intro ctx g hg _ _
    exact ⟨rfl, by simp [stepsIter], by simp [stepsIter], by simpa [stepsIter] using hg⟩
  | succ k ih =>
    intro ctx g hg hne hle
    have hlt : ctx.typingIndex < g.length := by omega
    have hgne : g.isEmpty = false := by simp [List.isEmpty_iff, hne]
    have hcomp : isTypingComplete ctx = false := by
      simp [isTypingComplete, hg, hgne]
      omega
    have htnc : typeNextChar ctx =
        { ctx with
            text := ctx.text ++ (g.drop ctx.typingIndex).take 1
            typingIndex := ctx.typingIndex + 1
            wordCount := wordCountJs (ctx.text ++ (g.drop ctx.typingIndex).take 1)
            charCount := (ctx.text ++ (g.drop ctx.typingIndex).take 1).length } := by
      simp [typeNextChar, hg, hgne]
    have h2 : stepsIter Event.typeNext (k + 1) (MState.typing, ctx) =
        stepsIter Event.typeNext k (MState.typing, typeNextChar ctx) := by
      rw [show stepsIter Event.typeNext (k + 1) (MState.typing, ctx)
          = stepsIter Event.typeNext k (step MState.typing ctx Event.typeNext) from rfl]
      simp [step, hcomp]
    obtain ⟨ih1, ih2, ih3, ih4⟩ :=
      ih (typeNextChar ctx) g (by rw [htnc]; exact hg) hne
        (by rw [htnc]; show ctx.typingIndex + 1 + k ≤ g.length; omega)
    rw [h2]
    refine ⟨ih1, ?_, ?_, ih4⟩
    · rw [ih2, htnc]
      show ctx.text ++ (g.drop ctx.typingIndex).take 1
          ++ (g.drop (ctx.typingIndex + 1)).take k = _
      rw [List.append_assoc, take_one_cons g ctx.typingIndex k hlt]
    · rw [ih3, htnc]
      show ctx.typingIndex + 1 + k = ctx.typingIndex + (k + 1)
      omega

/-- Running the full reveal plus one final tick from a typing
configuration at index zero reaches idle with the whole continuation
appended. -/
theorem typing_full_run (ctx : EditorContext) (g : List Char)
    (hg : ctx.generatedText = some g) (hi : ctx.typingIndex = 0) :
    (stepsIter Event.typeNext (g.length + 1) (MState.typing, ctx)).1 = MState.idle ∧
    (stepsIter Event.typeNext (g.length + 1) (MState.typing, ctx)).2.text
      = ctx.text ++ g := by
  by_cases hne : g = []
  · subst hne
    constructor <;>
      simp [stepsIter, step, isTypingComplete, hg, completeTyping, stopTyping]
  · obtain ⟨h1, h2, h3, h4⟩ := ticks_run g.length ctx g hg hne (by omega)
    rw [stepsIter_add_one, h1]
    have hcomp : isTypingComplete
        (stepsIter Event.typeNext g.length (MState.typing, ctx)).2 = true := by
      simp [isTypingComplete, h4, h3, hi]
    constructor
    · simp [step, hcomp]
    · simp [step, hcomp, completeTyping, stopTyping, h2, hi]

/-! ## Claim C3 -/

/-- Claim C3 counterexample: for a pending continuation of length one at
index zero, a single TYPE_NEXT_CHAR dispatch leaves the machine in
typing, not idle; the transition to idle takes one extra dispatch. -/
theorem c3_counterexample :
    (stepsIter Event.typeNext 1 (MState.typing,
      { initCtx with
          text := ("A").toList
          generatedText := some (("B").toList)
          isTyping := true })).1 ≠ MState.idle := by
  decide

/-- Claim C3 as amended: from typing with a pending continuation of
length N at reveal index zero, after N TYPE_NEXT_CHAR dispatches the
machine is still typing and the text already equals the text at loading
time concatenated with the whole continuation; the dispatch number N+1
moves to idle with that same text. -/
theorem c3_amended (ctx : EditorContext) (g : List Char)
    (hg : ctx.generatedText = some g) (hi : ctx.typingIndex = 0) :
    (stepsIter Event.typeNext g.length (MState.typing, ctx)).1 = MState.typing ∧
    (stepsIter Event.typeNext g.length (MState.typing, ctx)).2.text = ctx.text ++ g ∧
    (stepsIter Event.typeNext (g.length + 1) (MState.typing, ctx)).1 = MState.idle ∧
    (stepsIter Event.typeNext (g.length + 1) (MState.typing, ctx)).2.text
      = ctx.text ++ g := by
  have hfull := typing_full_run ctx g hg hi
  by_cases hne : g = []
  · subst hne
    exact ⟨rfl, by simp [stepsIter], hfull.1, hfull.2⟩
  · obtain ⟨h1, h2, _, _⟩ := ticks_run g.length ctx g hg hne (by omega)
    refine ⟨h1, ?_, hfull.1, hfull.2⟩
    rw [h2, hi]
    simp

/-- Witness for the amended claim C3 with continuation "ab" over text
"A". -/
theorem c3_amended_witness :
    (stepsIter Event.typeNext (("ab").toList).length (MState.typing,
      { initCtx with
          text := ("A").toList
          generatedText := some (("ab").toList)
          isTyping := true })).1 = MState.typing ∧
    (stepsIter Event.typeNext (("ab").toList).length (MState.typing,
      { initCtx with
          text := ("A").toList
          generatedText := some (("ab").toList)
          isTyping := true })).2.text = ("A").toList ++ ("ab").toList ∧
    (stepsIter Event.typeNext ((("ab").toList).length + 1) (MState.typing,
      { initCtx with
          text := ("A").toList
          generatedText := some (("ab").toList)
          isTyping := true })).1 = MState.idle ∧
    (stepsIter Event.typeNext ((("ab").toList).length + 1) (MState.typing,
      { initCtx with
          text := ("A").toList
          generatedText := some (("ab").toList)
          isTyping := true })).2.text = ("A").toList ++ ("ab").toList :=
  c3_amended _ _ rfl rfl

/-! ## Claim C7 -/

/-- Claim C7: dispatching STOP_TYPING after k of N reveal ticks yields
the same final document text as letting the reveal run to completion. -/
theorem c7_skip_to_end (ctx : EditorContext) (g : List Char) (k : Nat)
    (hg : ctx.generatedText = some g) (hi : ctx.typingIndex = 0)
    (hk : k < g.length) :
    (stepsIter Event.stopTypingEv 1
        (stepsIter Event.typeNext k (MState.typing, ctx))).2.text
      = (stepsIter Event.typeNext (g.length + 1) (MState.typing, ctx)).2.text := by
  have hne : g ≠ [] := by
    intro h
    subst h
    simp at hk
  obtain ⟨h1, h2, h3, h4⟩ := ticks_run k ctx g hg hne (by omega)
  have hfull := typing_full_run ctx g hg hi
  rw [hfull.2]
  rw [show stepsIter Event.stopTypingEv 1
        (stepsIter Event.typeNext k (MState.typing, ctx))
      = step (stepsIter Event.typeNext k (MState.typing, ctx)).1
          (stepsIter Event.typeNext k (MState.typing, ctx)).2
          Event.stopTypingEv from rfl]
  rw [h1]
  have hgne : g.isEmpty = false := by simp [List.isEmpty_iff, hne]
  simp [step, completeTypingImmediately, stopTyping, h4, hgne, h2, h3, hi]

/-- Witness for claim C7 with continuation "ab", stopping after one
tick. -/
theorem c7_skip_to_end_witness :
    (stepsIter Event.stopTypingEv 1
        (stepsIter Event.typeNext 1 (MState.typing,
          { initCtx with generatedText := some (("ab").toList), isTyping := true }))).2.text
      = (stepsIter Event.typeNext ((("ab").toList).length + 1) (MState.typing,
          { initCtx with generatedText := some (("ab").toList), isTyping := true })).2.text :=
  c7_skip_to_end _ _ 1 rfl rfl (by decide)

/-! ## History lemmas for claim C5 -/

/-- A history push never exceeds ten entries. -/
theorem pushHist_le_ten (h : List (List Char)) (t : List Char) :
    (pushHist h t).length ≤ 10 := by
  unfold pushHist
  rw [List.length_append, List.length_drop]
  simp
  omega

/-- The reveal tick never touches the history. -/
theorem typeNextChar_history (ctx : EditorContext) :
    (typeNextChar ctx).history = ctx.history := by
  cases hg : ctx.generatedText with
  | none => simp [typeNextChar, hg]
  | some g => by_cases hge : g.isEmpty <;> simp [typeNextChar, hg, hge]

/-- The skip-to-end action never touches the history. -/
theorem completeTypingImmediately_history (ctx : EditorContext) :
    (completeTypingImmediately ctx).history = ctx.history := by
  cases hg : ctx.generatedText with
  | none => simp [completeTypingImmediately, hg]
  | some g => by_cases hge : g.isEmpty <;> simp [completeTypingImmediately, hg, hge]

/-- A single transition preserves the ten-entry history bound. -/
theorem step_history_le (s : MState) (ctx : EditorContext) (e : Event)
    (h : ctx.history.length ≤ 10) : (step s ctx e).2.history.length ≤ 10 := by
  have hpush := pushHist_le_ten ctx.history ctx.text
  cases s <;> cases e <;>
    first
    | exact h
    | exact hpush
    | skip
  case idle.continueWriting =>
    by_cases hg : hasText ctx <;> simp [step, hg, saveToHistory] <;>
      first | exact hpush | exact h
  case idle.undo =>
    by_cases hg : hasHistory ctx <;> simp [step, hg, undoText] <;> omega
  case typing.typeNext =>
    by_cases hg : isTypingComplete ctx <;> simp [step, hg]
    · exact h
    · rw [typeNextChar_history]
      exact h
  case typing.stopTypingEv =>
    have hh := completeTypingImmediately_history (stopTyping ctx)
    simp only [step]
    rw [hh]
    exact h

/-- Every reachable configuration keeps at most ten history entries. -/
theorem reach_history_le : ∀ p : MState × EditorContext, Reach p →
    p.2.history.length ≤ 10 := by
  intro p hp
  induction hp with
  | init => simp [initCtx]
  | next h e ih => exact step_history_le _ _ _ ih

/-- Folding pushes over an initial history of at most ten entries keeps
the last ten of the concatenation. -/
theorem pushHist_foldl (l : List (List Char)) : ∀ h : List (List Char), h.length ≤ 10 →
    List.foldl pushHist h l = (h ++ l).drop ((h ++ l).length - 10) := by
  induction l with
  | nil =>
    intro h hle
    simp [Nat.sub_eq_zero_of_le hle]
  | cons t l ih =>
    intro h hle
    rw [List.foldl_cons, ih (pushHist h t) (pushHist_le_ten h t)]
    by_cases hc : h.length ≤ 9
    · have hpt : pushHist h t = h ++ [t] := by
        unfold pushHist
        rw [Nat.sub_eq_zero_of_le hc, List.drop_zero]
      rw [hpt, List.append_assoc]
      rfl
    · have h10 : h.length = 10 := by omega
      obtain ⟨a, h2, hh⟩ : ∃ a h2, h = a :: h2 := by
        cases h with
        | nil => simp at h10
        | cons a h2 => exact ⟨a, h2, rfl⟩
      have h9 : h2.length = 9 := by
        rw [hh] at h10
        simp at h10
        omega
      have hpt : pushHist h t = h2 ++ [t] := by
        unfold pushHist
        rw [hh]
        have e0 : (a :: h2).length - 9 = 1 := by simp [h9]
        rw [e0]
        rfl
      rw [hpt, hh]
      have e1 : (h2 ++ [t] ++ l).length - 10 = l.length := by
        simp [h9]
        omega
      have e2 : ((a :: h2) ++ t :: l).length - 10 = l.length + 1 := by
        simp [h9]
      rw [e1, e2]
      rw [List.append_assoc]
      rw [show (a :: h2) ++ t :: l = a :: (h2 ++ t :: l) from rfl]
      rw [List.drop_succ_cons]
      rfl

/-- The snapshot list of a run has one entry per continuation. -/
theorem preTexts_length (gs : List (List Char)) : ∀ t : List Char,
    (preTexts t gs).length = gs.length := by
  induction gs with
  | nil => intro t; rfl
  | cons g gs ih => intro t; simp [preTexts, ih]

/-- Blank-text characterization of the JavaScript trim. -/
theorem jsTrim_eq_nil_iff (l : List Char) :
    jsTrim l = [] ↔ ∀ x ∈ l, isWs x = true := by
  unfold jsTrim
  rw [List.reverse_eq_nil_iff, List.dropWhile_eq_nil_iff]
  constructor
  · intro h x hx
    have hsplit := List.takeWhile_append_dropWhile (p := isWs) (l := l)
    rw [← hsplit] at hx
    rcases List.mem_append.mp hx with h1 | h2
    · exact List.mem_takeWhile_imp h1
    · exact h x (List.mem_reverse.mpr h2)
  · intro h x hx
    exact h x ((List.dropWhile_suffix isWs).sublist.subset (List.mem_reverse.mp hx))

/-- Appending cannot blank a text that trims to something nonempty. -/
theorem jsTrim_append_ne (t g : List Char) (h : jsTrim t ≠ []) :
    jsTrim (t ++ g) ≠ [] := by
  intro hc
  apply h
  rw [jsTrim_eq_nil_iff] at hc ⊢
  intro x hx
  exact hc x (List.mem_append.mpr (Or.inl hx))

/-- One successful continuation cycle from idle: the machine returns to
idle, the continuation is appended to the text, and exactly one snapshot
of the pre-continuation text is pushed. -/
theorem run_cycle (ctx : EditorContext) (g : List Char) (h : jsTrim ctx.text ≠ []) :
    (runEvents (MState.idle, ctx)
        [Event.continueWriting, Event.done g, Event.stopTypingEv]).1 = MState.idle ∧
    (runEvents (MState.idle, ctx)
        [Event.continueWriting, Event.done g, Event.stopTypingEv]).2.text
      = ctx.text ++ g ∧
    (runEvents (MState.idle, ctx)
        [Event.continueWriting, Event.done g, Event.stopTypingEv]).2.history
      = pushHist ctx.history ctx.text := by
  have ht : hasText ctx = true := by
    simp [hasText, List.isEmpty_iff, h]
  by_cases hge : g.isEmpty
  · have hg0 : g = [] := List.isEmpty_iff.mp hge
    subst hg0
    refine ⟨?_, ?_, ?_⟩ <;>
      simp [runEvents, step, ht, saveToHistory, prepareTyping, startTyping, stopTyping,
        completeTypingImmediately]
  · have hgne : g ≠ [] := by
      intro hh
      exact hge (by simp [hh])
    refine ⟨?_, ?_, ?_⟩ <;>
      simp [runEvents, step, ht, saveToHistory, prepareTyping, startTyping, stopTyping,
        completeTypingImmediately, hge, hgne]

/-- Any number of successful continuation cycles from idle: text grows
by the concatenation of all continuations and the history is the fold of
pushes of the pre-continuation snapshots. -/
theorem run_cycles (gs : List (List Char)) : ∀ ctx : EditorContext,
    jsTrim ctx.text ≠ [] →
    (runEvents (MState.idle, ctx) (cyclesEvents gs)).1 = MState.idle ∧
    (runEvents (MState.idle, ctx) (cyclesEvents gs)).2.text = ctx.text ++ gs.flatten ∧
    (runEvents (MState.idle, ctx) (cyclesEvents gs)).2.history
      = List.foldl pushHist ctx.history (preTexts ctx.text gs) := by
  induction gs with
  | nil =>
    intro ctx h
    exact ⟨rfl, by simp [cyclesEvents, runEvents], by simp [cyclesEvents, runEvents, preTexts]⟩
  | cons g gs ih =>
    intro ctx h
    have hsplit : runEvents (MState.idle, ctx) (cyclesEvents (g :: gs))
        = runEvents (runEvents (MState.idle, ctx)
            [Event.continueWriting, Event.done g, Event.stopTypingEv]) (cyclesEvents gs) := by
      rw [show cyclesEvents (g :: gs)
          = [Event.continueWriting, Event.done g, Event.stopTypingEv] ++ cyclesEvents gs
          from by simp [cyclesEvents]]
      exact List.foldl_append ..
    obtain ⟨h1, h2, h3⟩ := run_cycle ctx g h
    have hqq : runEvents (MState.idle, ctx)
          [Event.continueWriting, Event.done g, Event.stopTypingEv]
        = (MState.idle, (runEvents (MState.idle, ctx)
            [Event.continueWriting, Event.done g, Event.stopTypingEv]).2) :=
      Prod.ext_iff.mpr ⟨h1, rfl⟩
    have htext2 : jsTrim (runEvents (MState.idle, ctx)
        [Event.continueWriting, Event.done g, Event.stopTypingEv]).2.text ≠ [] := by
      rw [h2]
      exact jsTrim_append_ne _ _ h
    obtain ⟨g1, g2, g3⟩ := ih _ htext2
    rw [hsplit, hqq]
    refine ⟨g1, ?_, ?_⟩
    · rw [g2, h2, List.append_assoc]
      simp
    · rw [g3, h3, h2]
      rfl

/-! ## Claim C5 -/

/-- Claim C5: every reachable configuration keeps at most ten history
entries with oldest evicted first, and after twelve successive
successful continuations from an empty history the history is exactly
the ten most recent pre-continuation snapshots in order, most recent
last. -/
theorem c5_history_bound :
    (∀ p : MState × EditorContext, Reach p → p.2.history.length ≤ 10) ∧
    (∀ (ctx : EditorContext) (gs : List (List Char)), ctx.history = [] →
      jsTrim ctx.text ≠ [] → gs.length = 12 →
      (runEvents (MState.idle, ctx) (cyclesEvents gs)).2.history
        = (preTexts ctx.text gs).drop 2 ∧
      ((runEvents (MState.idle, ctx) (cyclesEvents gs)).2.history).length = 10) := by
  constructor
  · exact reach_history_le
  · intro ctx gs hh ht h12
    obtain ⟨-, -, h3⟩ := run_cycles gs ctx ht
    have hlen : (preTexts ctx.text gs).length = 12 := by
      rw [preTexts_length]
      exact h12
    have hdrop : (runEvents (MState.idle, ctx) (cyclesEvents gs)).2.history
        = (preTexts ctx.text gs).drop 2 := by
      rw [h3, hh, pushHist_foldl _ [] (by simp)]
      simp [hlen]
    refine ⟨hdrop, ?_⟩
    rw [hdrop, List.length_drop, hlen]

/-- Witness for claim C5: the bound at the initial configuration, and
the twelve-cycle run from text "A" with twelve copies of the
continuation "b". -/
theorem c5_history_bound_witness :
    initCtx.history.length ≤ 10 ∧
    (runEvents (MState.idle, { initCtx with text := ("A").toList })
        (cyclesEvents (List.replicate 12 (("b").toList)))).2.history
      = (preTexts (("A").toList) (List.replicate 12 (("b").toList))).drop 2 :=
  ⟨c5_history_bound.1 _ Reach.init,
   (c5_history_bound.2 { initCtx with text := ("A").toList }
      (List.replicate 12 (("b").toList)) rfl (by decide) (by decide)).1⟩

/-! ## Trim fixpoint lemmas for claim C9 -/

/-- Dropping while a predicate holds leaves a head that fails it. -/
theorem dropWhile_head_false {p : Char → Bool} (l : List Char) {c : Char}
    {rest : List Char} (h : l.dropWhile p = c :: rest) : p c = false := by
  induction l generalizing c rest with
  | nil =>
    simp [List.dropWhile] at h
  | cons a l ih =>
    cases hpa : p a with
    | true =>
      simp [List.dropWhile, hpa] at h
      exact ih h
    | false =>
      simp [List.dropWhile, hpa] at h
      rw [← h.1]
      exact hpa

/-- A list whose head fails the predicate is untouched by dropWhile. -/
theorem dropWhile_eq_self_of_head {p : Char → Bool} (l : List Char)
    (h : ∀ c rest, l = c :: rest → p c = false) : l.dropWhile p = l := by
  cases l with
  | nil => rfl
  | cons c rest => simp [List.dropWhile, h c rest rfl]

/-- The JavaScript trim as a right-drop of the left-drop. -/
theorem jsTrim_eq_rdrop (l : List Char) :
    jsTrim l = List.rdropWhile isWs (l.dropWhile isWs) := rfl

/-- The head of a trimmed string is not whitespace. -/
theorem jsTrim_head_not_ws (l : List Char) :
    ∀ c rest, jsTrim l = c :: rest → isWs c = false := by
  intro c rest h
  have hpre : jsTrim l <+: l.dropWhile isWs := by
    rw [jsTrim_eq_rdrop]
    exact List.rdropWhile_prefix ..
  obtain ⟨t, ht⟩ := hpre
  rw [h] at ht
  exact dropWhile_head_false l ht.symm

/-- Dropping twice is dropping once. -/
theorem dropWhile_idem (p : Char → Bool) (l : List Char) :
    (l.dropWhile p).dropWhile p = l.dropWhile p :=
  dropWhile_eq_self_of_head _ (fun _ _ h => dropWhile_head_false _ h)

/-- The JavaScript trim is idempotent. -/
theorem jsTrim_idem (l : List Char) : jsTrim (jsTrim l) = jsTrim l := by
  have h1 : (jsTrim l).dropWhile isWs = jsTrim l :=
    dropWhile_eq_self_of_head _ (fun c rest h => jsTrim_head_not_ws l c rest h)
  rw [jsTrim_eq_rdrop (jsTrim l), h1, jsTrim_eq_rdrop l]
  simp [List.rdropWhile, List.reverse_reverse, dropWhile_idem]

/-- Trimming eats a single prepended space. -/
theorem jsTrim_cons_space (l : List Char) : jsTrim (' ' :: l) = jsTrim l := by
  simp [jsTrim, List.dropWhile, isWs]

/-- Re-spacing never changes the trimmed value of an already trimmed
string. -/
theorem respace_trim (text Y : List Char) (hY : jsTrim Y = Y) :
    jsTrim (stageRespace text Y) = Y := by
  unfold stageRespace
  split
  · rw [jsTrim_cons_space, hY]
  · exact hY

/-- Whitespace characters belong to the cleanup class. -/
theorem ws_false_of_cleanup_false {c : Char} (h : isCleanupC c = false) :
    isWs c = false := by
  cases hw : isWs c
  · rfl
  · rw [show isCleanupC c = (c == '.' || c == ',' || c == ';' || c == ':' || isWs c)
      from rfl, hw] at h
    simp at h

/-- The cleanup stage yields a fixpoint of the cleanup drop. -/
theorem stageCleanup_dropWhile (X : List Char) :
    (stageCleanup X).dropWhile isCleanupC = stageCleanup X := by
  apply dropWhile_eq_self_of_head
  intro c rest h
  have hZhead : ∀ (d : Char) (zs : List Char),
      X.dropWhile isCleanupC = d :: zs → isCleanupC d = false :=
    fun _ _ hh => dropWhile_head_false X hh
  have hZ : (X.dropWhile isCleanupC).dropWhile isWs = X.dropWhile isCleanupC :=
    dropWhile_eq_self_of_head _
      (fun d zs hh => ws_false_of_cleanup_false (hZhead d zs hh))
  have hpre : stageCleanup X <+: X.dropWhile isCleanupC := by
    rw [show stageCleanup X
        = List.rdropWhile isWs ((X.dropWhile isCleanupC).dropWhile isWs) from rfl, hZ]
    exact List.rdropWhile_prefix ..
  obtain ⟨t, ht⟩ := hpre
  rw [h] at ht
  exact hZhead c (rest ++ t) ht.symm

/-- The cleanup stage yields an already trimmed string. -/
theorem stageCleanup_trim (X : List Char) :
    jsTrim (stageCleanup X) = stageCleanup X :=
  jsTrim_idem (X.dropWhile isCleanupC)

/-- When the four echo tests all fail on a trimmed cleanup fixpoint Y,
cleaning any string that trims to Y just re-spaces Y. -/
theorem clean_fixpoint (text Y : List Char)
    (hYdrop : Y.dropWhile isCleanupC = Y) (hYtrim : jsTrim Y = Y)
    (h1 : startsWithL (lowerL Y) (lowerL (jsTrim text)) = false)
    (h2n : strat2Find (lowerL Y) (splitRuns isWs (jsTrim text))
        (min (splitRuns isWs (jsTrim text)).length 20) = none)
    (h3z : strat3Max text Y = 0)
    (h4n : strat4Find (lowerL Y) (sentencesOf text) (sentencesOf text).length = none)
    (s : List Char) (hs : jsTrim s = Y) :
    cleanServer text s = stageRespace text Y := by
  rw [cleanServer_factored text s, hs]
  have e1 : stageFullEcho text (lowerL Y) Y = Y := by
    simp [stageFullEcho, h1]
  have e2 : stageWordRun text (lowerL Y) Y = Y := by
    simp [stageWordRun, h2n]
  have e3 : stageOverlap text Y = Y := by
    simp [stageOverlap, h3z]
  have e4 : stageSentence text (lowerL Y) Y = Y := by
    simp [stageSentence, h4n]
  have e5 : stageCleanup Y = Y := by
    unfold stageCleanup
    rw [hYdrop, hYtrim]
  rw [e1, e2, e3, e4, e5]

/-! ## Claim C9 -/

/-- Claim C9: the pipeline is idempotent once repetition is gone —
whenever the cleaned continuation, re-trimmed, passes none of the four
echo tests against the original, cleaning a second time changes
nothing. -/
theorem c9_idempotent (text raw : List Char)
    (h : noEchoTests text (jsTrim (cleanServer text raw)) = true) :
    cleanServer text (cleanServer text raw) = cleanServer text raw := by
  obtain ⟨Y, hfac, hYdrop, hYtrim⟩ :
      ∃ Y, cleanServer text raw = stageRespace text Y ∧
        Y.dropWhile isCleanupC = Y ∧ jsTrim Y = Y :=
    ⟨_, cleanServer_factored text raw, stageCleanup_dropWhile _, stageCleanup_trim _⟩
  have htr : jsTrim (cleanServer text raw) = Y := by
    rw [hfac]
    exact respace_trim _ _ hYtrim
  rw [htr] at h
  simp only [noEchoTests, Bool.and_eq_true, Bool.not_eq_true'] at h
  obtain ⟨⟨⟨h1, h2⟩, h3⟩, h4⟩ := h
  rw [clean_fixpoint text Y hYdrop hYtrim h1 (Option.isNone_iff_eq_none.mp h2)
      (by simpa using h3) (Option.isNone_iff_eq_none.mp h4)
      (cleanServer text raw) htr]
  exact hfac.symm

/-- Witness for claim C9 at the spec's no-false-match example. -/
theorem c9_idempotent_witness :
    noEchoTests ("Hello world").toList
      (jsTrim (cleanServer ("Hello world").toList ("Goodbye moon.").toList)) = true ∧
    cleanServer ("Hello world").toList
        (cleanServer ("Hello world").toList ("Goodbye moon.").toList)
      = cleanServer ("Hello world").toList ("Goodbye moon.").toList :=
  ⟨by decide, c9_idempotent _ _ (by decide)⟩
